import Mathlib

set_option maxRecDepth 4000

/- Shallow embedding of the SpoofCoin mining core.

   Sources: src/genesis_miner.cpp (standalone genesis miner),
   src/src/kernel/genesis_customcoin.cpp (kernel genesis miner),
   src/src/spoofcoin/miner.cpp (node-integrated AdvancedMiner),
   src/src/spoofcoin-miner.cpp (miner CLI front end).

   256-bit integers are modelled as the source stores them: a list of eight
   32-bit words, least significant word first (uint256::data). Bytes and hex
   characters are modelled as Nat and Char. The SHA-256 primitive comes from
   OpenSSL, outside this repository, so functions that call it take it as a
   parameter. -/

/-- Value of a hex digit character, as strtol(..., 16) classifies digits:
0-9, a-f, A-F; none for a non-digit. -/
def hexDigitVal (c : Char) : Option Nat :=
  if 48 ≤ c.toNat ∧ c.toNat ≤ 57 then some (c.toNat - 48)
  else if 97 ≤ c.toNat ∧ c.toNat ≤ 102 then some (c.toNat - 87)
  else if 65 ≤ c.toNat ∧ c.toNat ≤ 70 then some (c.toNat - 55)
  else none

/-- strtol(s, nullptr, 16) on a two-character string: parses the longest
prefix of hex digits, returning 0 when the first character is not a digit. -/
def strtol16two (c1 c2 : Char) : Nat :=
  match hexDigitVal c1 with
  | none => 0
  | some d1 =>
    match hexDigitVal c2 with
    | none => d1
    | some d2 => 16 * d1 + d2

/-- One iteration of the uint256::SetHex loop body (genesis_miner.cpp:28-37):
the character pair at string position i lands at the byte position counted
from the tail of the string, ORed into its 32-bit word. For an odd-length
string the final iteration underflows the unsigned index arithmetic in the
source and writes out of bounds (undefined behaviour); that write is modelled
as a no-op. -/
def setHexWrite (hex : List Char) (i : Nat) (d : List Nat) : List Nat :=
  if i + 2 ≤ hex.length then
    let bytePos := (hex.length - i - 2) / 2
    let wordPos := bytePos / 4
    let byteInWord := bytePos % 4
    let byteVal := strtol16two (hex.getD i '0') (hex.getD (i + 1) '0')
    d.set wordPos (Nat.lor (d.getD wordPos 0) (byteVal <<< (byteInWord * 8)))
  else d

/-- The uint256::SetHex for-loop: i starts at 0 and advances by 2 while
i < hex.length. The first argument bounds the number of iterations; setHex
passes hex.length, which is ample. -/
def setHexAux (hex : List Char) : Nat → Nat → List Nat → List Nat
  | 0, _, d => d
  | fuel + 1, i, d =>
    if i < hex.length then setHexAux hex fuel (i + 2) (setHexWrite hex i d)
    else d

/-- uint256::SetHex (genesis_miner.cpp:24-38): clears the eight words, keeps
them zero for strings longer than 64 characters, otherwise fills them from
the hex string, last character pair into byte 0. -/
def setHex (hex : List Char) : List Nat :=
  if 64 < hex.length then List.replicate 8 0
  else setHexAux hex hex.length 0 (List.replicate 8 0)

/-- Lower-case hex digit character of a nibble, as std::hex prints it. -/
def toHexNibble (n : Nat) : Char :=
  if n < 10 then Char.ofNat (48 + n) else Char.ofNat (87 + n)

/-- The eight hex characters of one 32-bit word, most significant nibble
first, as stringstream with setw(8)/setfill('0') prints a uint32_t. -/
def wordHex8 (w : Nat) : List Char :=
  (List.range 8).map (fun j => toHexNibble (w >>> ((7 - j) * 4) % 16))

/-- uint256::GetHex (genesis_miner.cpp:40-46): the words printed from data[7]
down to data[0], eight hex characters each. -/
def getHex (d : List Nat) : List Char :=
  ((List.range 8).map (fun i => wordHex8 (d.getD (7 - i) 0))).flatten

/-- The descent of uint256::operator< over the given word indices. -/
def u256ltFrom (a b : List Nat) : List Nat → Bool
  | [] => false
  | i :: rest =>
    if a.getD i 0 < b.getD i 0 then true
    else if b.getD i 0 < a.getD i 0 then false
    else u256ltFrom a b rest

/-- uint256::operator< (genesis_miner.cpp:48-54): word 7 compared first. -/
def u256lt (a b : List Nat) : Bool :=
  u256ltFrom a b [7, 6, 5, 4, 3, 2, 1, 0]

/-- uint256::operator== (genesis_miner.cpp:60-62), memcmp over the words. -/
def u256eq (a b : List Nat) : Bool := a == b

/-- uint256::operator<= (genesis_miner.cpp:56-58). -/
def u256le (a b : List Nat) : Bool := u256lt a b || u256eq a b

/-- Numeric value of a word array, least significant 32-bit word first. -/
def u256val : List Nat → Nat
  | [] => 0
  | w :: ws => w + 4294967296 * u256val ws

/-- Byte of the word array at a byte position: byte 0 is the least
significant byte of data[0]. -/
def byteAt (d : List Nat) (pos : Nat) : Nat :=
  d.getD (pos / 4) 0 / 2 ^ (pos % 4 * 8) % 256

/-- All bytes of the word array strictly below position m are zero. -/
def lowClear (d : List Nat) (m : Nat) : Prop :=
  ∀ pos, pos < m → byteAt d pos = 0

/-- The standalone miner's block header (genesis_miner.cpp:66-72); the two
hash fields are uint256 word arrays. -/
structure BlockHeader where
  nVersion : Nat
  hashPrevBlock : List Nat
  hashMerkleRoot : List Nat
  nTime : Nat
  nBits : Nat
  nNonce : Nat
deriving DecidableEq

/-- Little-endian serialization of a 32-bit field, four bytes, low byte
first (genesis_miner.cpp:78-80). -/
def serU32LE (x : Nat) : List Nat :=
  (List.range 4).map (fun i => x >>> (i * 8) % 256)

/-- Serialization of a hash field (genesis_miner.cpp:83-86): the GetHex
string is re-parsed two characters at a time from position 62 down to 0. -/
def serHash (u : List Nat) : List Nat :=
  (List.range 32).map (fun j =>
    strtol16two ((getHex u).getD (62 - 2 * j) '0') ((getHex u).getD (63 - 2 * j) '0'))

/-- BlockHeader::Serialize (genesis_miner.cpp:74-110). -/
def BlockHeader.serialize (h : BlockHeader) : List Nat :=
  serU32LE h.nVersion ++ serHash h.hashPrevBlock ++ serHash h.hashMerkleRoot ++
    serU32LE h.nTime ++ serU32LE h.nBits ++ serU32LE h.nNonce

/-- The hex string the Hash function builds from the 32 digest bytes
(genesis_miner.cpp:125-128): each byte (a value below 256) printed with
setw(2), high nibble first, bytes in digest output order. -/
def bytesToHexChars : List Nat → List Char
  | [] => []
  | b :: bs => toHexNibble (b / 16) :: toHexNibble (b % 16) :: bytesToHexChars bs

/-- Hash (genesis_miner.cpp:113-131): the SHA-256 primitive sha (OpenSSL,
outside this repository) applied twice, the digest bytes printed to a hex
string, and the string parsed back through uint256::SetHex. -/
def Hash (sha : List Nat → List Nat) (data : List Nat) : List Nat :=
  setHex (bytesToHexChars (sha (sha data)))

/-- Nonce/time update at the bottom of the standalone mining loop
(genesis_miner.cpp:178-183): the 32-bit nonce is incremented; when it wraps
to 0 the 32-bit timestamp is incremented. -/
def stepHeader (h : BlockHeader) : BlockHeader :=
  let n := (h.nNonce + 1) % 4294967296
  if n = 0 then { h with nNonce := 0, nTime := (h.nTime + 1) % 4294967296 }
  else { h with nNonce := n }

/-- The given header with its search-variable fields (nonce and time)
replaced. -/
def setNT (h : BlockHeader) (n t : Nat) : BlockHeader :=
  { h with nNonce := n, nTime := t }

/-- The standalone miner's search loop (genesis_miner.cpp:152-184), run for
at most fuel iterations: serialize, double-hash, count the attempt, stop when
the digest is ≤ target, else step the nonce (and, on wrap, the time). On
success it reports the nonce, time, digest and total hash count, the values
printed at genesis_miner.cpp:166-173. -/
def mineLoop (sha : List Nat → List Nat) (target : List Nat) :
    BlockHeader → Nat → Nat → Option (Nat × Nat × List Nat × Nat)
  | _, _, 0 => none
  | h, hashes, fuel + 1 =>
    let digest := Hash sha h.serialize
    if u256le digest target then some (h.nNonce, h.nTime, digest, hashes + 1)
    else mineLoop sha target (stepHeader h) (hashes + 1) fuel

/-- Modelled from the spec: arith_uint256::SetCompact, the compact nBits
decoding, is reference code not present under src. Spec section 3 rule: the
exponent E is the top byte, the mantissa M is the low 23 bits with the sign
bit masked off; if E ≤ 3 the target is M shifted right by 8*(3-E) bits,
otherwise M shifted left by 8*(E-3) bits truncated to 256 bits, so an
out-of-range shift yields a zero target. -/
def decodeCompact (bits : Nat) : Nat :=
  let e := bits / 16777216
  let m := bits % 8388608
  if e ≤ 3 then m >>> (8 * (3 - e)) else (m <<< (8 * (e - 3))) % (2 ^ 256)

/-- Target selection in MineCustomCoinGenesisBlock
(genesis_customcoin.cpp:50-53): the decoded compact target, clamped down to
powLimit when it exceeds it. -/
def kernelTarget (nBits powLimit : Nat) : Nat :=
  let hashTarget := decodeCompact nBits
  if powLimit < hashTarget then powLimit else hashTarget

/-- Target selection in AdvancedMiner::MineBlock (miner.cpp:148-149): the
compact target decoded and used directly, with no clamp. -/
def mineBlockTarget (nBits : Nat) : Nat := decodeCompact nBits

/-- One iteration of the MineCustomCoinGenesisBlock loop state
(genesis_customcoin.cpp:56-72) on the no-success path: the header's nonce is
set from the local counter, then the 32-bit local counter is incremented.
The header's time field is never touched by this loop. -/
def kernelIter (p : BlockHeader × Nat) : BlockHeader × Nat :=
  ({ p.1 with nNonce := p.2 }, (p.2 + 1) % 4294967296)

/-- The MineCustomCoinGenesisBlock search loop (genesis_customcoin.cpp:56-72)
with fuel, parametrised by the block hash function (CBlock::GetHash and the
arith_uint256 comparison are reference code outside src, abstracted as a
digest value per header). Returns the found nonce and the header as it
stands at the success check. -/
def mineCustomLoop (getHash : BlockHeader → Nat) (target : Nat) :
    BlockHeader → Nat → Nat → Option (Nat × BlockHeader)
  | _, _, 0 => none
  | h, nNonce, fuel + 1 =>
    if getHash { h with nNonce := nNonce } ≤ target then
      some (nNonce, { h with nNonce := nNonce })
    else mineCustomLoop getHash target { h with nNonce := nNonce }
      ((nNonce + 1) % 4294967296) fuel

/-- One call of AdvancedMiner::MineBlock (miner.cpp:151-162) viewed through
its nonce traversal, for a run in which no hash meets the target, the stop
flag stays false and no other thread touches the shared counter: fetch_add
returns the old counter value as the starting nonce and leaves the counter
1000 higher; the loop condition re-reads the counter and adds another 1000.
Returns the list of nonces tested and the new counter value. -/
def mineBlockNoSuccess (counter : Nat) : List Nat × Nat :=
  let start := counter
  let counter2 := (counter + 1000) % 4294967296
  let bound := (counter2 + 1000) % 4294967296
  (if start < bound then List.range' start (bound - start) else [], counter2)

/-- The block of 1000 nonces a MineBlock call claims with its fetch_add. -/
def claimedBlock (counter : Nat) : List Nat := List.range' counter 1000

/-- The AdvancedMiner state touched by StartMining (miner.h:139-144,
miner.cpp:28-47): the statistics block, the stored config (thread count and
reward script), the stop flag and the worker thread list (its length). -/
structure MinerState where
  is_mining : Bool
  hashes_computed : Nat
  blocks_found : Nat
  start_time : Nat
  config_threads : Nat
  config_address : List Nat
  stop_mining : Bool
  mining_threads : Nat
deriving DecidableEq

/-- AdvancedMiner::StartMining (miner.cpp:28-47): when already mining it
returns false at once; otherwise it stores the config, clears the stop flag,
marks mining, stamps the start time and spawns the worker threads. -/
def startMining (s : MinerState) (threads : Nat) (address : List Nat)
    (now : Nat) : Bool × MinerState :=
  if s.is_mining then (false, s)
  else
    (true,
      { s with
        config_threads := threads
        config_address := address
        stop_mining := false
        is_mining := true
        start_time := now
        mining_threads := s.mining_threads + threads })

/-- The address-to-payload conversion in SetupMiner
(spoofcoin-miner.cpp:134-136): the raw bytes of the -address string, resized
down to 20 bytes when longer, zero-padded up to 20 bytes when shorter. -/
def addrBytes (address : List Nat) : List Nat :=
  let b := if 20 < address.length then address.take 20 else address
  b ++ List.replicate (20 - b.length) 0

/-- The P2PKH reward script SetupMiner builds (spoofcoin-miner.cpp:138):
OP_DUP OP_HASH160 <20-byte push> OP_EQUALVERIFY OP_CHECKSIG. The opcode and
push-length byte values follow the reference script encoding, outside src. -/
def rewardScript (address : List Nat) : List Nat :=
  118 :: 169 :: 20 :: (addrBytes address ++ [136, 172])

/-- The -address handling of SetupMiner (spoofcoin-miner.cpp:125-142) when
the flag is present: an empty string is rejected, any other string is
accepted and turned into the reward script with no further validation. -/
def setupMinerAddress (address : List Nat) : Option (List Nat) :=
  if address.isEmpty then none else some (rewardScript address)

/-- The hard-coded genesis header of the standalone miner
(genesis_miner.cpp:135-141); nBits is 0x1d00ffff. -/
def genesisHeader : BlockHeader :=
  { nVersion := 1
    hashPrevBlock :=
      setHex ("0000000000000000000000000000000000000000000000000000000000000000".toList)
    hashMerkleRoot :=
      setHex ("4a5e1e4baab89f3a32518a88c31bc87f618f76673e2cc77ab2127b7afdeda33b".toList)
    nTime := 1737933600
    nBits := 486604799
    nNonce := 0 }

/-- The hex string of the hard-coded target (genesis_miner.cpp:144). -/
def minerTargetHex : List Char :=
  "00000000ffff0000000000000000000000000000000000000000000000000000".toList

/-- The target the standalone miner compares every digest against
(genesis_miner.cpp:144,165). -/
def minerTarget : List Nat := setHex minerTargetHex

/-- Specification-side value of a digest byte string read with the first
byte most significant (the hash function's natural big-endian order). -/
def beBytesVal : List Nat → Nat
  | [] => 0
  | b :: bs => b * 256 ^ bs.length + beBytesVal bs

/-- Specification-side value of a digest byte string read with the first
byte least significant (the spec's reversed-byte-number convention). -/
def leBytesVal : List Nat → Nat
  | [] => 0
  | b :: bs => b + 256 * leBytesVal bs

/-- Value of a hex string read as a big-endian number, first character most
significant. -/
def hexBEval : List Char → Nat
  | [] => 0
  | c :: cs => (hexDigitVal c).getD 0 * 16 ^ cs.length + hexBEval cs

/-- Specification-side little-endian four-byte layout of a 32-bit field
(spec section 3). -/
def specLE4 (x : Nat) : List Nat :=
  [x % 256, x / 256 % 256, x / 65536 % 256, x / 16777216 % 256]

/-- The canonical display bytes of a uint256: the GetHex string read as byte
pairs in display order, most significant byte first. -/
def displayBytes (u : List Nat) : List Nat :=
  (List.range 32).map (fun m =>
    strtol16two ((getHex u).getD (2 * m) '0') ((getHex u).getD (2 * m + 1) '0'))

/-- Specification-side serialization (spec section 3): version, time, bits
and nonce little-endian; each hash field written as its display bytes in
reversed order. -/
def specSerialize (h : BlockHeader) : List Nat :=
  specLE4 h.nVersion ++ (displayBytes h.hashPrevBlock).reverse ++
    (displayBytes h.hashMerkleRoot).reverse ++ specLE4 h.nTime ++
    specLE4 h.nBits ++ specLE4 h.nNonce

/-- A SHA-256 stand-in returning a digest whose first output byte is 1 and
whose remaining 31 bytes are 0, to exhibit the standalone miner's byte-order
convention. -/
def cexSha (_bytes : List Nat) : List Nat := 1 :: List.replicate 31 0

/-- A SHA-256 stand-in returning the bytes 0..31, a digest with 32 distinct
byte values. -/
def wSha (_bytes : List Nat) : List Nat := List.range 32

/-- A SHA-256 stand-in returning the all-zero digest, which satisfies any
target. -/
def zeroSha (_bytes : List Nat) : List Nat := List.replicate 32 0

/-- An all-zero target word array. -/
def wTarget : List Nat := List.replicate 8 0

/-- A miner state in which mining is already in progress. -/
def busyState : MinerState :=
  { is_mining := true
    hashes_computed := 5
    blocks_found := 1
    start_time := 7
    config_threads := 2
    config_address := [1, 2]
    stop_mining := false
    mining_threads := 2 }

/- Helper lemmas: list access and the word-array value. -/

lemma getD_replicate_zero : ∀ (n k : Nat), (List.replicate n (0 : Nat)).getD k 0 = 0 := by
  intro n
  induction n with
  | zero => intro k; simp [List.replicate]
  | succ n ih =>
    intro k
    cases k with
    | zero => simp [List.replicate]
    | succ k => simp [List.replicate, ih k]

lemma getD_set_self : ∀ (d : List Nat) (wp x : Nat), wp < d.length →
    (d.set wp x).getD wp 0 = x := by
  intro d
  induction d with
  | nil => intro wp x h; simp at h
  | cons w ws ih =>
    intro wp x h
    cases wp with
    | zero => simp
    | succ wp => simpa using ih wp x (by simpa using h)

lemma getD_set_ne : ∀ (d : List Nat) (wp x k : Nat), k ≠ wp →
    (d.set wp x).getD k 0 = d.getD k 0 := by
  intro d
  induction d with
  | nil => intro wp x k _; simp
  | cons w ws ih =>
    intro wp x k hk
    cases wp with
    | zero =>
      cases k with
      | zero => exact absurd rfl hk
      | succ k => simp
    | succ wp =>
      cases k with
      | zero => simp
      | succ k => simpa using ih wp x k (by omega)

lemma u256val_set_add : ∀ (d : List Nat) (wp y : Nat), wp < d.length →
    u256val (d.set wp (d.getD wp 0 + y)) = u256val d + 2 ^ (32 * wp) * y := by
  intro d
  induction d with
  | nil => intro wp y h; simp at h
  | cons w ws ih =>
    intro wp y h
    cases wp with
    | zero => simp [u256val]; ring
    | succ wp =>
      have hlen : wp < ws.length := by simpa using h
      simp only [List.set, u256val, List.getD_cons_succ]
      rw [ih wp y hlen, show 32 * (wp + 1) = 32 * wp + 32 by ring, pow_add]
      ring

/- Helper lemmas: bit arithmetic for the SetHex word writes. -/

lemma lor_eq_add {n w b : Nat} (hw : w % 2 ^ n = 0) (hb : b < 2 ^ n) :
    Nat.lor w b = w + b := by
  obtain ⟨q, hq⟩ : (2 : Nat) ^ n ∣ w := Nat.dvd_of_mod_eq_zero hw
  show w ||| b = w + b
  apply Nat.eq_of_testBit_eq
  intro i
  rw [Nat.testBit_lor]
  rcases lt_or_ge i n with hi | hi
  · have hwbit : w.testBit i = false := by
      rw [Nat.testBit_to_div_mod]
      have hdiv : w / 2 ^ i = 2 ^ (n - i) * q := by
        rw [hq, show (2 : Nat) ^ n = 2 ^ i * 2 ^ (n - i) by
          rw [← pow_add]; congr 1; omega, mul_assoc]
        exact Nat.mul_div_cancel_left _ (Nat.two_pow_pos i)
      have : w / 2 ^ i % 2 = 0 := by
        rw [hdiv, show n - i = (n - i - 1) + 1 by omega, pow_succ]
        exact Nat.mod_eq_zero_of_dvd ⟨2 ^ (n - i - 1) * q, by ring⟩
      simp [this]
    have hmod : (w + b) % 2 ^ n = b := by
      rw [hq, Nat.mul_add_mod, Nat.mod_eq_of_lt hb]
    have hsum : (w + b).testBit i = b.testBit i := by
      have h1 : ((w + b) % 2 ^ n).testBit i = (w + b).testBit i := by
        rw [Nat.testBit_mod_two_pow]
        simp [hi]
      rw [← h1, hmod]
    rw [hsum, hwbit, Bool.false_or]
  · have hbbit : b.testBit i = false :=
      Nat.testBit_lt_two_pow (lt_of_lt_of_le hb (Nat.pow_le_pow_right (by norm_num) hi))
    have hdiveq : (w + b) / 2 ^ i = w / 2 ^ i := by
      have hwb : (w + b) / 2 ^ n = q := by
        rw [hq, Nat.mul_add_div (Nat.two_pow_pos n), Nat.div_eq_of_lt hb, Nat.add_zero]
      have hw2 : w / 2 ^ n = q := by
        rw [hq, Nat.mul_div_cancel_left _ (Nat.two_pow_pos n)]
      have hsplit : (2 : Nat) ^ i = 2 ^ n * 2 ^ (i - n) := by
        rw [← pow_add]
        congr 1
        omega
      rw [hsplit, ← Nat.div_div_eq_div_mul, ← Nat.div_div_eq_div_mul, hwb, hw2]
    rw [hbbit, Bool.or_false, Nat.testBit_to_div_mod, Nat.testBit_to_div_mod, hdiveq]

lemma bytes_zero_of_mod {x k : Nat} (h : x % 2 ^ (8 * k) = 0) :
    ∀ j, j < k → x / 2 ^ (8 * j) % 256 = 0 := by
  intro j hj
  have hdvd : (2 : Nat) ^ (8 * j) * 256 ∣ x := by
    have he : (2 : Nat) ^ (8 * j) * 256 = 2 ^ (8 * j + 8) := by
      rw [pow_add]; norm_num
    rw [he]
    exact dvd_trans (pow_dvd_pow 2 (by omega)) (Nat.dvd_of_mod_eq_zero h)
  have h2 : (2 : Nat) ^ (8 * j) ∣ x := dvd_trans (dvd_mul_right _ _) hdvd
  exact Nat.mod_eq_zero_of_dvd ((Nat.dvd_div_iff_mul_dvd h2).mpr hdvd)

lemma mod_zero_of_bytes {x k : Nat} (h : ∀ j, j < k → x / 2 ^ (8 * j) % 256 = 0) :
    x % 2 ^ (8 * k) = 0 := by
  induction k with
  | zero => simp [Nat.mod_one]
  | succ k ih =>
    have h1 : x % 2 ^ (8 * k) = 0 := ih (fun j hj => h j (by omega))
    have h2 : x / 2 ^ (8 * k) % 256 = 0 := h k (by omega)
    have he : (2 : Nat) ^ (8 * (k + 1)) = 2 ^ (8 * k) * 256 := by
      rw [show 8 * (k + 1) = 8 * k + 8 by ring, pow_add]; norm_num
    rw [he, Nat.mod_mul, h1, h2]
    simp

/- Helper lemmas: hex digits and strtol. -/

lemma hexDigitVal_lt {c : Char} {d : Nat} (h : hexDigitVal c = some d) : d < 16 := by
  unfold hexDigitVal at h
  split_ifs at h <;> simp at h <;> omega

lemma strtol16two_lt (c1 c2 : Char) : strtol16two c1 c2 < 256 := by
  unfold strtol16two
  cases hc1 : hexDigitVal c1 with
  | none => norm_num
  | some d1 =>
    have hd1 := hexDigitVal_lt hc1
    cases hc2 : hexDigitVal c2 with
    | none => simpa using by omega
    | some d2 =>
      have hd2 := hexDigitVal_lt hc2
      simpa using by omega

lemma strtol16two_digits {c1 c2 : Char} (h1 : (hexDigitVal c1).isSome)
    (h2 : (hexDigitVal c2).isSome) :
    strtol16two c1 c2 = 16 * (hexDigitVal c1).getD 0 + (hexDigitVal c2).getD 0 := by
  obtain ⟨d1, hd1⟩ := Option.isSome_iff_exists.mp h1
  obtain ⟨d2, hd2⟩ := Option.isSome_iff_exists.mp h2
  unfold strtol16two
  rw [hd1, hd2]
  simp [hd1, hd2]

/- Helper lemmas: the SetHex loop respects prepending a character pair, and
its effect on the numeric value of the word array. -/

lemma byteAt_word (d : List Nat) (wp j : Nat) (hj : j < 4) :
    byteAt d (4 * wp + j) = d.getD wp 0 / 2 ^ (j * 8) % 256 := by
  have h1 : (4 * wp + j) / 4 = wp := by
    rw [Nat.mul_add_div (by norm_num)]
    simp [Nat.div_eq_of_lt hj]
  have h2 : (4 * wp + j) % 4 = j := by
    rw [Nat.mul_add_mod]
    exact Nat.mod_eq_of_lt hj
  rw [byteAt, h1, h2]

lemma setHexWrite_shift (c1 c2 : Char) (rest : List Char) (i : Nat) (d : List Nat) :
    setHexWrite (c1 :: c2 :: rest) (i + 2) d = setHexWrite rest i d := by
  unfold setHexWrite
  have hlen : (c1 :: c2 :: rest).length = rest.length + 2 := by simp
  rw [hlen]
  by_cases hle : i + 2 ≤ rest.length
  · rw [if_pos (by omega), if_pos hle]
    have hbp : rest.length + 2 - (i + 2) - 2 = rest.length - i - 2 := by omega
    have hc1 : (c1 :: c2 :: rest).getD (i + 2) '0' = rest.getD i '0' := by
      simp [List.getD_cons_succ, show i + 2 = (i + 1) + 1 by omega]
    have hc2 : (c1 :: c2 :: rest).getD (i + 2 + 1) '0' = rest.getD (i + 1) '0' := by
      simp [List.getD_cons_succ, show i + 2 + 1 = (i + 2) + 1 by omega,
        show i + 2 = (i + 1) + 1 by omega]
    rw [hbp, hc1, hc2]
  · rw [if_neg (by omega), if_neg hle]

lemma setHexAux_shift (c1 c2 : Char) : ∀ (fuel : Nat) (rest : List Char) (i : Nat)
    (d : List Nat), setHexAux (c1 :: c2 :: rest) fuel (i + 2) d = setHexAux rest fuel i d := by
  intro fuel
  induction fuel with
  | zero => intro rest i d; rfl
  | succ fuel ih =>
    intro rest i d
    simp only [setHexAux]
    have hlen : (c1 :: c2 :: rest).length = rest.length + 2 := by simp
    by_cases hi : i < rest.length
    · rw [if_pos (by rw [hlen]; omega), if_pos hi, setHexWrite_shift]
      exact ih rest (i + 2) _
    · rw [if_neg (by rw [hlen]; omega), if_neg hi]

lemma setHexAux_val : ∀ (fuel : Nat) (hex : List Char) (d : List Nat),
    hex.length ≤ 2 * fuel → hex.length ≤ 64 → 2 ∣ hex.length →
    (∀ c ∈ hex, (hexDigitVal c).isSome) → d.length = 8 →
    lowClear d (hex.length / 2) →
    u256val (setHexAux hex fuel 0 d) = u256val d + hexBEval hex := by
  intro fuel
  induction fuel with
  | zero =>
    intro hex d hf _ _ _ _ _
    have hnil : hex = [] := List.length_eq_zero.mp (by omega)
    subst hnil
    simp [setHexAux, hexBEval]
  | succ fuel ih =>
    intro hex d hf h64 heven hdig hlen hclear
    rcases hex with _ | ⟨c1, hex1⟩
    · simp [setHexAux, hexBEval]
    rcases hex1 with _ | ⟨c2, rest⟩
    · exfalso
      simp only [List.length_cons, List.length_nil] at heven
      omega
    have hlenhex : (c1 :: c2 :: rest).length = rest.length + 2 := by simp
    obtain ⟨p, hrl⟩ : ∃ p, rest.length = 2 * p := (by
      rw [hlenhex] at heven
      omega : 2 ∣ rest.length)
    have hp31 : p ≤ 31 := by
      rw [hlenhex, hrl] at h64
      omega
    have hdigits1 : (hexDigitVal c1).isSome := hdig c1 (by simp)
    have hdigits2 : (hexDigitVal c2).isSome := hdig c2 (by simp)
    have hbv : strtol16two c1 c2 < 256 := strtol16two_lt c1 c2
    set v := strtol16two c1 c2 with hv
    set wp := p / 4 with hwp
    set sh := p % 4 * 8 with hsh
    have hwp8 : wp < 8 := by omega
    have hwrite : setHexWrite (c1 :: c2 :: rest) 0 d =
        d.set wp (Nat.lor (d.getD wp 0) (v <<< sh)) := by
      simp only [setHexWrite, List.length_cons, List.getD_cons_zero, List.getD_cons_succ]
      rw [if_pos (by omega)]
      congr 2
      · omega
      · congr 2
        · omega
      · congr 1
        omega
    have hA : d.getD wp 0 % 2 ^ (sh + 8) = 0 := by
      have hbytes : ∀ j, j < p % 4 + 1 → d.getD wp 0 / 2 ^ (8 * j) % 256 = 0 := by
        intro j hj
        have hj4 : j < 4 := by omega
        have hpos : 4 * wp + j < (c1 :: c2 :: rest).length / 2 := by
          rw [hlenhex, hrl]
          omega
        have hb := hclear (4 * wp + j) hpos
        rw [byteAt_word d wp j hj4] at hb
        rwa [show j * 8 = 8 * j by ring] at hb
      rw [show sh + 8 = 8 * (p % 4 + 1) by rw [hsh]; ring]
      exact mod_zero_of_bytes hbytes
    have hlor : Nat.lor (d.getD wp 0) (v <<< sh) = d.getD wp 0 + v * 2 ^ sh := by
      rw [Nat.shiftLeft_eq]
      refine lor_eq_add hA ?_
      calc v * 2 ^ sh < 256 * 2 ^ sh := (Nat.mul_lt_mul_right (Nat.two_pow_pos sh)).mpr hbv
        _ = 2 ^ (sh + 8) := by rw [pow_add]; ring
    have hval : u256val (d.set wp (d.getD wp 0 + v * 2 ^ sh)) =
        u256val d + v * 2 ^ (8 * p) := by
      rw [u256val_set_add d wp (v * 2 ^ sh) (by omega)]
      rw [show 8 * p = 32 * wp + sh by rw [hwp, hsh]; omega, pow_add]
      ring
    have hclear2 : lowClear (d.set wp (d.getD wp 0 + v * 2 ^ sh)) p := by
      intro pos hpos
      by_cases hcase : pos / 4 = wp
      · have hmod4 : pos % 4 < p % 4 := by omega
        simp only [byteAt]
        rw [hcase, getD_set_self _ _ _ (by omega)]
        have hx : (d.getD wp 0 + v * 2 ^ sh) % 2 ^ (8 * (p % 4)) = 0 := by
          have h1 : (2 : Nat) ^ sh ∣ d.getD wp 0 :=
            dvd_trans (pow_dvd_pow 2 (by omega)) (Nat.dvd_of_mod_eq_zero hA)
          have h2 : (2 : Nat) ^ sh ∣ v * 2 ^ sh := dvd_mul_left _ _
          rw [show 8 * (p % 4) = sh by rw [hsh]; ring]
          exact Nat.mod_eq_zero_of_dvd (Nat.dvd_add h1 h2)
        have hz := bytes_zero_of_mod hx (pos % 4) hmod4
        rwa [show (8 : Nat) * (pos % 4) = pos % 4 * 8 by ring] at hz
      · simp only [byteAt]
        rw [getD_set_ne _ _ _ _ hcase]
        have hb := hclear pos (by rw [hlenhex, hrl]; omega)
        simpa [byteAt] using hb
    simp only [setHexAux]
    rw [if_pos (by simp)]
    rw [setHexAux_shift c1 c2 fuel rest 0, hwrite, hlor]
    rw [ih rest (d.set wp (d.getD wp 0 + v * 2 ^ sh))
      (by rw [hlenhex] at hf; omega)
      (by rw [hlenhex] at h64; omega)
      ⟨p, hrl⟩
      (fun c hc => hdig c (by simp [hc]))
      (by rw [List.length_set]; exact hlen)
      (by rw [hrl, Nat.mul_div_cancel_left p (by norm_num : 0 < 2)]; exact hclear2)]
    rw [hval]
    have hval16 : hexBEval (c1 :: c2 :: rest) =
        ((hexDigitVal c1).getD 0 * 16 + (hexDigitVal c2).getD 0) * 16 ^ rest.length
          + hexBEval rest := by
      simp only [hexBEval, List.length_cons, pow_succ]
      ring
    rw [hval16, hv, strtol16two_digits hdigits1 hdigits2]
    have h16 : (16 : Nat) ^ rest.length = 2 ^ (8 * p) := by
      rw [hrl, show (16 : Nat) = 2 ^ 4 by norm_num, ← pow_mul]
      congr 1
      ring
    rw [h16]
    ring

lemma lowClear_zeros (m : Nat) : lowClear (List.replicate 8 0) m := by
  intro pos _
  rw [byteAt, getD_replicate_zero]
  simp

lemma setHex_val {hex : List Char} (h64 : hex.length ≤ 64) (heven : 2 ∣ hex.length)
    (hdig : ∀ c ∈ hex, (hexDigitVal c).isSome) :
    u256val (setHex hex) = hexBEval hex := by
  unfold setHex
  rw [if_neg (by omega)]
  rw [setHexAux_val hex.length hex (List.replicate 8 0) (by omega) h64 heven hdig
    (by simp) (lowClear_zeros _)]
  norm_num [show u256val (List.replicate 8 0) = 0 from rfl]

lemma bytesToHexChars_length : ∀ bs : List Nat, (bytesToHexChars bs).length = 2 * bs.length := by
  intro bs
  induction bs with
  | nil => rfl
  | cons b bs ih =>
    simp only [bytesToHexChars, List.length_cons, ih]
    omega

lemma hexDigitVal_toHexNibble {n : Nat} (h : n < 16) : hexDigitVal (toHexNibble n) = some n := by
  interval_cases n <;> decide

lemma bytesToHexChars_digits : ∀ bs : List Nat, (∀ b ∈ bs, b < 256) →
    ∀ c ∈ bytesToHexChars bs, (hexDigitVal c).isSome := by
  intro bs
  induction bs with
  | nil => intro _ c hc; simp [bytesToHexChars] at hc
  | cons b bs ih =>
    intro hb c hc
    have hblt : b < 256 := hb b (by simp)
    simp only [bytesToHexChars, List.mem_cons] at hc
    rcases hc with rfl | hc1
    · rw [hexDigitVal_toHexNibble (by omega)]; rfl
    rcases hc1 with rfl | hc2
    · rw [hexDigitVal_toHexNibble (by omega)]; rfl
    · exact ih (fun x hx => hb x (by simp [hx])) c hc2

lemma hexBEval_bytesToHexChars : ∀ bs : List Nat, (∀ b ∈ bs, b < 256) →
    hexBEval (bytesToHexChars bs) = beBytesVal bs := by
  intro bs
  induction bs with
  | nil => intro _; rfl
  | cons b bs ih =>
    intro hb
    have hblt : b < 256 := hb b (by simp)
    have h1 : hexDigitVal (toHexNibble (b / 16)) = some (b / 16) :=
      hexDigitVal_toHexNibble (by omega)
    have h2 : hexDigitVal (toHexNibble (b % 16)) = some (b % 16) :=
      hexDigitVal_toHexNibble (by omega)
    simp only [bytesToHexChars, hexBEval, beBytesVal, h1, h2, Option.getD_some,
      List.length_cons, bytesToHexChars_length]
    rw [ih (fun x hx => hb x (by simp [hx]))]
    have h256 : (16 : Nat) ^ (2 * bs.length) = 256 ^ bs.length := by
      rw [pow_mul]
      norm_num
    rw [pow_succ, h256]
    have hb16 : 16 * (b / 16) + b % 16 = b := Nat.div_add_mod b 16
    conv_rhs => rw [← hb16]
    ring

/- Helper lemmas: the serialized hash field is the value's bytes in
little-endian order. -/

lemma pairVal (w s : Nat) :
    strtol16two (toHexNibble (w >>> (s + 4) % 16)) (toHexNibble (w >>> s % 16)) =
      w >>> s % 256 := by
  have h1 := hexDigitVal_toHexNibble (show w >>> (s + 4) % 16 < 16 from
    Nat.mod_lt _ (by norm_num))
  have h2 := hexDigitVal_toHexNibble (show w >>> s % 16 < 16 from
    Nat.mod_lt _ (by norm_num))
  simp only [strtol16two, h1, h2]
  rw [Nat.shiftRight_eq_div_pow, Nat.shiftRight_eq_div_pow]
  have hdd : w / 2 ^ (s + 4) = w / 2 ^ s / 16 := by
    rw [Nat.div_div_eq_div_mul, show (16 : Nat) = 2 ^ 4 by norm_num, ← pow_add]
  rw [hdd]
  generalize w / 2 ^ s = y
  rw [show (256 : Nat) = 16 * 16 by norm_num, Nat.mod_mul]
  ring

lemma getHex_getD (u : List Nat) : ∀ k, k < 64 →
    (getHex u).getD k '0' =
      toHexNibble (u.getD (7 - k / 8) 0 >>> ((7 - k % 8) * 4) % 16) := by
  intro k hk
  interval_cases k <;> rfl

lemma serHash_eq (u : List Nat) : serHash u = (List.range 32).map (fun j => byteAt u j) := by
  unfold serHash
  refine List.map_congr_left ?_
  intro j hj
  have hj32 : j < 32 := List.mem_range.mp hj
  rw [getHex_getD u (62 - 2 * j) (by omega), getHex_getD u (63 - 2 * j) (by omega)]
  have e1 : 7 - (62 - 2 * j) / 8 = j / 4 := by omega
  have e2 : (7 - (62 - 2 * j) % 8) * 4 = j % 4 * 8 + 4 := by omega
  have e3 : 7 - (63 - 2 * j) / 8 = j / 4 := by omega
  have e4 : (7 - (63 - 2 * j) % 8) * 4 = j % 4 * 8 := by omega
  rw [e1, e2, e3, e4, pairVal (u.getD (j / 4) 0) (j % 4 * 8)]
  rw [byteAt, Nat.shiftRight_eq_div_pow]

lemma serU32LE_eq (x : Nat) : serU32LE x = specLE4 x := by
  have h4 : List.range 4 = [0, 1, 2, 3] := rfl
  simp only [serU32LE, specLE4, h4, List.map_cons, List.map_nil,
    Nat.shiftRight_eq_div_pow]
  norm_num

lemma displayBytes_eq (u : List Nat) :
    displayBytes u = (List.range 32).map (fun m => byteAt u (31 - m)) := by
  unfold displayBytes
  refine List.map_congr_left ?_
  intro m hm
  have hm32 : m < 32 := List.mem_range.mp hm
  rw [getHex_getD u (2 * m) (by omega), getHex_getD u (2 * m + 1) (by omega)]
  have e1 : 7 - 2 * m / 8 = (31 - m) / 4 := by omega
  have e2 : (7 - 2 * m % 8) * 4 = (31 - m) % 4 * 8 + 4 := by omega
  have e3 : 7 - (2 * m + 1) / 8 = (31 - m) / 4 := by omega
  have e4 : (7 - (2 * m + 1) % 8) * 4 = (31 - m) % 4 * 8 := by omega
  rw [e1, e2, e3, e4, pairVal (u.getD ((31 - m) / 4) 0) ((31 - m) % 4 * 8)]
  rw [byteAt, Nat.shiftRight_eq_div_pow]

lemma displayBytes_reverse (u : List Nat) :
    (displayBytes u).reverse = (List.range 32).map (fun j => byteAt u j) := by
  rw [displayBytes_eq]
  have h32 : List.range 32 = [0, 1, 2, 3, 4, 5, 6, 7, 8, 9, 10, 11, 12, 13, 14, 15,
    16, 17, 18, 19, 20, 21, 22, 23, 24, 25, 26, 27, 28, 29, 30, 31] := rfl
  simp only [h32, List.map_cons, List.map_nil, List.reverse_cons,
    List.reverse_nil, List.nil_append, List.cons_append, List.append_nil]

/- Helper lemmas: the standalone search loop and the kernel search loop. -/

lemma setNT_stepHeader (h : BlockHeader) (n t : Nat) :
    setNT (stepHeader h) n t = setNT h n t := by
  simp only [stepHeader, setNT]
  split <;> rfl

lemma setNT_self (h : BlockHeader) : setNT h h.nNonce h.nTime = h := by
  cases h
  rfl

lemma mineLoop_digest (sha : List Nat → List Nat) (target : List Nat) :
    ∀ (fuel : Nat) (h : BlockHeader) (hashes n t : Nat) (d : List Nat) (hs : Nat),
    mineLoop sha target h hashes fuel = some (n, t, d, hs) →
    u256le d target = true ∧ d = Hash sha (setNT h n t).serialize ∧ hashes < hs := by
  intro fuel
  induction fuel with
  | zero =>
    intro h hashes n t d hs hml
    simp [mineLoop] at hml
  | succ fuel ih =>
    intro h hashes n t d hs hml
    simp only [mineLoop] at hml
    by_cases hle : u256le (Hash sha h.serialize) target
    · rw [if_pos hle] at hml
      simp only [Option.some.injEq, Prod.mk.injEq] at hml
      obtain ⟨rfl, rfl, rfl, rfl⟩ := hml
      exact ⟨hle, by rw [setNT_self], by omega⟩
    · rw [if_neg hle] at hml
      obtain ⟨ha, hb, hc⟩ := ih (stepHeader h) (hashes + 1) n t d hs hml
      exact ⟨ha, by rw [hb, setNT_stepHeader], by omega⟩

lemma mineLoop_count (sha : List Nat → List Nat) (target : List Nat) :
    ∀ (fuel : Nat) (h : BlockHeader) (hashes n t : Nat) (d : List Nat) (hs : Nat),
    h.nNonce < 4294967296 →
    mineLoop sha target h hashes fuel = some (n, t, d, hs) →
    hs - hashes ≤ 4294967296 - h.nNonce →
    n = h.nNonce + (hs - hashes) - 1 ∧ t = h.nTime := by
  intro fuel
  induction fuel with
  | zero =>
    intro h hashes n t d hs _ hml _
    simp [mineLoop] at hml
  | succ fuel ih =>
    intro h hashes n t d hs hlt hml hbound
    simp only [mineLoop] at hml
    by_cases hle : u256le (Hash sha h.serialize) target
    · rw [if_pos hle] at hml
      simp only [Option.some.injEq, Prod.mk.injEq] at hml
      obtain ⟨h1, h2, _, h4⟩ := hml
      exact ⟨by omega, h2.symm⟩
    · rw [if_neg hle] at hml
      have hcnt := (mineLoop_digest sha target fuel (stepHeader h) (hashes + 1)
        n t d hs hml).2.2
      by_cases hwrap : h.nNonce + 1 < 4294967296
      · have hstep : stepHeader h = { h with nNonce := h.nNonce + 1 } := by
          simp only [stepHeader]
          rw [if_neg (by omega)]
          rw [Nat.mod_eq_of_lt hwrap]
        have h2 := ih (stepHeader h) (hashes + 1) n t d hs
          (by rw [hstep]; simpa using hwrap) hml
          (by rw [hstep]; simp only [BlockHeader.mk.injEq]; simp; omega)
        rw [hstep] at h2
        simp only [] at h2
        refine ⟨?_, ?_⟩
        · have hn := h2.1
          simp at hn
          omega
        · have ht := h2.2
          simpa using ht
      · exfalso
        omega

lemma mineCustomLoop_found (getHash : BlockHeader → Nat) (target : Nat) :
    ∀ (fuel : Nat) (h : BlockHeader) (nn n : Nat) (hf : BlockHeader),
    mineCustomLoop getHash target h nn fuel = some (n, hf) →
    getHash hf ≤ target ∧ hf.nNonce = n := by
  intro fuel
  induction fuel with
  | zero =>
    intro h nn n hf hml
    simp [mineCustomLoop] at hml
  | succ fuel ih =>
    intro h nn n hf hml
    simp only [mineCustomLoop] at hml
    by_cases hle : getHash { h with nNonce := nn } ≤ target
    · rw [if_pos hle] at hml
      simp only [Option.some.injEq, Prod.mk.injEq] at hml
      obtain ⟨rfl, rfl⟩ := hml
      exact ⟨hle, rfl⟩
    · rw [if_neg hle] at hml
      exact ih _ _ _ _ hml

lemma addrBytes_formula (a : List Nat) :
    addrBytes a = a.take 20 ++ List.replicate (20 - min a.length 20) 0 := by
  simp only [addrBytes]
  split_ifs with h20
  · simp [List.length_take, Nat.min_comm]
  · rw [List.take_of_length_le (by omega)]
    simp [Nat.min_eq_left (by omega : a.length ≤ 20)]

/- The claims. -/

/-- C1: for the single-threaded proof-of-work search started at nonce 0, if
the loop terminates then the reported digest is the double hash of the header
serialized with the reported nonce (and time) and is ≤ the target under the
256-bit comparison; in the standalone miner's non-overflow case the reported
total hash count equals nonce + 1 (and the time is unchanged). The kernel
genesis loop likewise returns only a nonce whose header hashes to a value ≤
its target. -/
theorem spoof_c1 :
    (∀ (sha : List Nat → List Nat) (target : List Nat) (h : BlockHeader)
      (fuel n t hs : Nat) (d : List Nat),
      h.nNonce = 0 →
      mineLoop sha target h 0 fuel = some (n, t, d, hs) →
      u256le d target = true ∧ d = Hash sha (setNT h n t).serialize ∧
        (hs ≤ 4294967296 → hs = n + 1 ∧ t = h.nTime)) ∧
    (∀ (getHash : BlockHeader → Nat) (target : Nat) (h : BlockHeader)
      (fuel n : Nat) (hf : BlockHeader),
      mineCustomLoop getHash target h 0 fuel = some (n, hf) →
      getHash hf ≤ target ∧ hf.nNonce = n) := by
  constructor
  · intro sha target h fuel n t hs d h0 hml
    obtain ⟨ha, hb, hc⟩ := mineLoop_digest sha target fuel h 0 n t d hs hml
    refine ⟨ha, hb, ?_⟩
    intro hle
    have hcount := mineLoop_count sha target fuel h 0 n t d hs (by omega) hml (by omega)
    exact ⟨by omega, hcount.2⟩
  · intro getHash target h fuel n hf hml
    exact mineCustomLoop_found getHash target fuel h 0 n hf hml

/-- C1, witness: with an all-zero hash primitive and an all-zero target the
standalone loop succeeds on its first attempt at nonce 0 with hash count 1,
and the kernel loop returns nonce 0; both conclusions are instances of the
theorem at these concrete inputs. -/
theorem spoof_c1_witness :
    (u256le (List.replicate 8 0) wTarget = true ∧
      List.replicate 8 0 = Hash zeroSha (setNT genesisHeader 0 1737933600).serialize ∧
      (1 ≤ 4294967296 → 1 = 0 + 1 ∧ 1737933600 = genesisHeader.nTime)) ∧
    ((0 : Nat) ≤ 0 ∧ ({ genesisHeader with nNonce := 0 } : BlockHeader).nNonce = 0) :=
  ⟨spoof_c1.1 zeroSha wTarget genesisHeader 1 0 1737933600 1 (List.replicate 8 0)
      rfl (by decide),
    spoof_c1.2 (fun _ => 0) 0 genesisHeader 1 0 { genesisHeader with nNonce := 0 }
      (by decide)⟩

/-- C2, counterexample: the claim's reversed-byte-number convention says the
hash function's first output byte is the numerically least significant. With
a digest whose first output byte is 1 and whose other 31 bytes are 0, that
little-endian reading has value 1, but the standalone miner's Hash gives the
digest the value 2^248: the first output byte is the MOST significant. -/
theorem spoof_c2_counterexample :
    ¬ (u256val (Hash cexSha []) = leBytesVal (cexSha (cexSha []))) := by
  decide

/-- C2 (amended): the proof-of-work digest is the 256-bit hash primitive
applied twice in sequence, H(H(bytes)); but the standalone miner interprets
the digest, produced in the hash function's natural byte order, as a
BIG-endian 256-bit integer when comparing against the target: the first
output byte is the numerically most significant. -/
theorem spoof_c2_amended (sha : List Nat → List Nat) (data : List Nat)
    (hlen : (sha (sha data)).length = 32) (hb : ∀ b ∈ sha (sha data), b < 256) :
    u256val (Hash sha data) = beBytesVal (sha (sha data)) := by
  unfold Hash
  rw [setHex_val (by rw [bytesToHexChars_length, hlen])
    (by rw [bytesToHexChars_length]; exact ⟨_, rfl⟩)
    (bytesToHexChars_digits _ hb)]
  exact hexBEval_bytesToHexChars _ hb

/-- C2, witness: the amended theorem applied to a digest carrying the 32
distinct byte values 0..31. -/
theorem spoof_c2_amended_witness :
    ((wSha (wSha [])).length = 32 ∧ (∀ b ∈ wSha (wSha []), b < 256)) ∧
      u256val (Hash wSha []) = beBytesVal (wSha (wSha [])) :=
  ⟨⟨by decide, by decide⟩, spoof_c2_amended wSha [] (by decide) (by decide)⟩

/-- C3: Serialize produces exactly 80 bytes laid out as version(4) ||
prevBlockHash(32) || merkleRoot(32) || time(4) || bits(4) || nonce(4), with
the 32-bit fields little-endian and each hash field written as its canonical
display bytes in reversed order. -/
theorem spoof_c3 (h : BlockHeader) :
    h.serialize = specSerialize h ∧ h.serialize.length = 80 := by
  constructor
  · unfold BlockHeader.serialize specSerialize
    rw [serHash_eq, serHash_eq, displayBytes_reverse, displayBytes_reverse,
      serU32LE_eq, serU32LE_eq, serU32LE_eq, serU32LE_eq]
  · simp [BlockHeader.serialize, serHash, serU32LE]

/-- C4, counterexample: two no-success iterations of the kernel genesis
miner's single-threaded loop (one of the claim's two cited loops) starting
with the nonce counter at 0xFFFFFFFE wrap the counter to 0 but leave the
header's time field unchanged, not incremented by exactly 1. -/
theorem spoof_c4_counterexample :
    (kernelIter (kernelIter (genesisHeader, 4294967294))).2 = 0 ∧
    ¬ ((kernelIter (kernelIter (genesisHeader, 4294967294))).1.nTime =
        genesisHeader.nTime + 1) := by
  constructor
  · decide
  · decide

/-- C4 (amended): in the standalone miner's loop, two steps from nonce
0xFFFFFFFE leave the nonce at 0 and the time incremented by exactly 1 with no
other field changed (the first step yields 0xFFFFFFFF, time untouched); in
the kernel genesis miner's loop the nonce counter wraps to 0 with the
header's time (and every other field) unchanged. -/
theorem spoof_c4_amended (h g : BlockHeader) (hn : h.nNonce = 4294967294)
    (ht : h.nTime + 1 < 4294967296) :
    stepHeader (stepHeader h) = setNT h 0 (h.nTime + 1) ∧
    (stepHeader h).nNonce = 4294967295 ∧ (stepHeader h).nTime = h.nTime ∧
    (kernelIter (kernelIter (g, 4294967294))).2 = 0 ∧
    (kernelIter (kernelIter (g, 4294967294))).1.nTime = g.nTime ∧
    (kernelIter (kernelIter (g, 4294967294))).1.nVersion = g.nVersion := by
  have h1 : stepHeader h = { h with nNonce := 4294967295 } := by
    simp only [stepHeader, hn]
    rw [if_neg (by norm_num)]
  have h2 : stepHeader { h with nNonce := 4294967295 } = setNT h 0 (h.nTime + 1) := by
    simp only [stepHeader, setNT]
    rw [if_pos trivial]
    rw [Nat.mod_eq_of_lt ht]
  refine ⟨?_, ?_, ?_, ?_, ?_, ?_⟩
  · rw [h1, h2]
  · rw [h1]
  · rw [h1]
  · simp [kernelIter]
  · simp [kernelIter]
  · simp [kernelIter]

/-- C4, witness: the amended theorem at the concrete genesis header with its
nonce forced to 0xFFFFFFFE. -/
theorem spoof_c4_witness :
    stepHeader (stepHeader { genesisHeader with nNonce := 4294967294 }) =
      setNT { genesisHeader with nNonce := 4294967294 } 0
        (({ genesisHeader with nNonce := 4294967294 } : BlockHeader).nTime + 1) ∧
    (stepHeader { genesisHeader with nNonce := 4294967294 }).nNonce = 4294967295 ∧
    (stepHeader { genesisHeader with nNonce := 4294967294 }).nTime =
      ({ genesisHeader with nNonce := 4294967294 } : BlockHeader).nTime ∧
    (kernelIter (kernelIter (genesisHeader, 4294967294))).2 = 0 ∧
    (kernelIter (kernelIter (genesisHeader, 4294967294))).1.nTime = genesisHeader.nTime ∧
    (kernelIter (kernelIter (genesisHeader, 4294967294))).1.nVersion =
      genesisHeader.nVersion :=
  spoof_c4_amended { genesisHeader with nNonce := 4294967294 } genesisHeader rfl (by decide)

/-- C5, counterexample: AdvancedMiner::MineBlock is a node-integrated mining
variant and its block template carries nBits = 0x207fffff; with the standard
proof-of-work limit 0xffff << 208 its threshold is the unclamped decoded
value, not min(DecodeCompact(bits), powLimit). -/
theorem spoof_c5_counterexample :
    ¬ (mineBlockTarget 545259519 = min (decodeCompact 545259519) (65535 * 2 ^ 208)) := by
  decide

/-- C5 (amended): the kernel genesis-mining variant clamps its threshold to
min(DecodeCompact(bits), powLimit); the AdvancedMiner::MineBlock variant uses
DecodeCompact(bits) directly with no clamp. -/
theorem spoof_c5_amended (nBits powLimit : Nat) :
    kernelTarget nBits powLimit = min (decodeCompact nBits) powLimit ∧
    mineBlockTarget nBits = decodeCompact nBits := by
  constructor
  · simp only [kernelTarget]
    split_ifs with hcl <;> omega
  · rfl

/-- C6: decoding the compact bits 0x1d00ffff (exponent 29, mantissa 0x00ffff)
yields 0x00ffff shifted left by 8*(29-3) bits; the standalone miner's
hard-coded 64-character target hex string parses to exactly that value and
displays back to the same string, and the miner's header carries bits
0x1d00ffff while comparing against that target. -/
theorem spoof_c6 :
    decodeCompact 486604799 = 65535 * 2 ^ (8 * 26) ∧
    u256val minerTarget = decodeCompact 486604799 ∧
    getHex minerTarget = minerTargetHex ∧
    genesisHeader.nBits = 486604799 := by
  refine ⟨by decide, by decide, by decide, rfl⟩

/-- C7: evaluation at the failing input. With the shared nonce counter at 0
and a target no hash meets, the first MineBlock call claims the block
[0,1000) but tests nonces 0..1999, and the second call (counter now 1000)
tests 1000..2999: nonce 1500 is outside the first call's claimed block yet
tested by both calls, so the claimed-block containment and the cross-call
disjointness both fail. -/
theorem spoof_c7_bug :
    mineBlockNoSuccess 0 = (List.range' 0 2000, 1000) ∧
    mineBlockNoSuccess (mineBlockNoSuccess 0).2 = (List.range' 1000 2000, 2000) ∧
    1500 ∈ List.range' 0 2000 ∧
    1500 ∈ List.range' 1000 2000 ∧
    1500 ∉ claimedBlock 0 := by
  refine ⟨?_, ?_, ?_, ?_, ?_⟩
  · norm_num [mineBlockNoSuccess]
  · norm_num [mineBlockNoSuccess]
  · rw [List.mem_range']
    exact ⟨1500, by omega, by omega⟩
  · rw [List.mem_range']
    exact ⟨500, by omega, by omega⟩
  · rw [claimedBlock, List.mem_range']
    rintro ⟨i, hi, heq⟩
    omega

/-- C8: SetHex rejects any hex string longer than 64 characters outright: the
word array stays all-zero, value 0, never a partial parse of the over-length
input. -/
theorem spoof_c8 (hex : List Char) (h : 64 < hex.length) :
    setHex hex = List.replicate 8 0 ∧ u256val (setHex hex) = 0 := by
  unfold setHex
  rw [if_pos h]
  exact ⟨rfl, rfl⟩

/-- C8, witness: a 65-character string parses to the zero value. -/
theorem spoof_c8_witness :
    setHex (List.replicate 65 'f') = List.replicate 8 0 ∧
      u256val (setHex (List.replicate 65 'f')) = 0 :=
  spoof_c8 (List.replicate 65 'f') (by decide)

/-- C9: StartMining called while mining is already in progress returns false
at once and leaves the whole miner state unchanged: no threads are added and
the stored config, stop flag and statistics are untouched. -/
theorem spoof_c9 (s : MinerState) (threads : Nat) (address : List Nat)
    (now : Nat) (h : s.is_mining = true) :
    startMining s threads address now = (false, s) := by
  unfold startMining
  rw [if_pos h]

/-- C9, witness: the theorem at a concrete busy state. -/
theorem spoof_c9_witness :
    startMining busyState 8 [9] 42 = (false, busyState) :=
  spoof_c9 busyState 8 [9] 42 rfl

/-- C10: with -address present, any non-empty string is accepted without
validation; the reward script embeds exactly the first 20 bytes of the
string, truncating longer input and zero-padding shorter input, so two
address strings sharing their first 20 bytes produce the identical script. -/
theorem spoof_c10 (a b : List Nat) (ha : a ≠ []) (hb : b ≠ [])
    (hab : a.take 20 = b.take 20) :
    setupMinerAddress a = some (rewardScript a) ∧
    addrBytes a = a.take 20 ++ List.replicate (20 - min a.length 20) 0 ∧
    (addrBytes a).length = 20 ∧
    setupMinerAddress a = setupMinerAddress b := by
  have hmin : min a.length 20 = min b.length 20 := by
    have hlen : (a.take 20).length = (b.take 20).length := by rw [hab]
    simpa [List.length_take, Nat.min_comm] using hlen
  have haddr : addrBytes a = addrBytes b := by
    rw [addrBytes_formula, addrBytes_formula, hab, hmin]
  refine ⟨?_, addrBytes_formula a, ?_, ?_⟩
  · simp [setupMinerAddress, ha]
  · rw [addrBytes_formula]
    simp [List.length_take]
    omega
  · simp only [setupMinerAddress]
    rw [if_neg (by simpa using ha), if_neg (by simpa using hb)]
    rw [rewardScript, rewardScript, haddr]

/-- C10, witness: a 21-byte address is truncated to its first 20 bytes and
collides with the distinct address sharing those 20 bytes. -/
theorem spoof_c10_witness :
    setupMinerAddress (List.replicate 21 7) = some (rewardScript (List.replicate 21 7)) ∧
    addrBytes (List.replicate 21 7) =
      (List.replicate 21 7 : List Nat).take 20 ++
        List.replicate (20 - min (List.replicate 21 7 : List Nat).length 20) 0 ∧
    (addrBytes (List.replicate 21 7)).length = 20 ∧
    setupMinerAddress (List.replicate 21 7) =
      setupMinerAddress (List.replicate 20 7 ++ [9]) :=
  spoof_c10 (List.replicate 21 7) (List.replicate 20 7 ++ [9])
    (by decide) (by decide) (by decide)
